import Mathlib

/-!
A verification development for a container-image update checker.

The program polls a scheduler for running task instances, fetches and
filters registry tags per watched image, parses tags into semantic
versions, selects the newest version per image, and reports per instance
whether an update is available.

The definitions below are a shallow embedding of `src/main.go`.  External
collaborators (registry transport, the third-party version-parsing
library, the image-reference normalizer, the regular-expression engine)
are modelled as parameters or, where the specification pins down their
behaviour, as definitions modelled from the spec.
-/

namespace NomadTaskUpdates

/-! ### Generic three-way comparison helpers -/

/-- Three-way comparison derived from a linear order. -/
def cmp3 {α : Type} [LinearOrder α] (a b : α) : Ordering :=
  if a < b then .lt else if b < a then .gt else .eq

theorem cmp3_eq_iff {α : Type} [LinearOrder α] (a b : α) :
    cmp3 a b = .eq ↔ a = b := by
  unfold cmp3
  rcases lt_trichotomy a b with h | h | h
  · simp [h, ne_of_lt h]
  · simp [h, lt_irrefl]
  · simp [not_lt_of_gt h, h, (ne_of_lt h).symm]

theorem cmp3_gt_iff {α : Type} [LinearOrder α] (a b : α) :
    cmp3 a b = .gt ↔ b < a := by
  unfold cmp3
  rcases lt_trichotomy a b with h | h | h
  · simp [h, not_lt_of_gt h]
  · simp [h, lt_irrefl]
  · simp [h, not_lt_of_gt h]

theorem cmp3_lt_iff {α : Type} [LinearOrder α] (a b : α) :
    cmp3 a b = .lt ↔ a < b := by
  unfold cmp3
  rcases lt_trichotomy a b with h | h | h
  · simp [h]
  · simp [h, lt_irrefl]
  · simp [h, not_lt_of_gt h]

theorem then_eq_eq {o₁ o₂ : Ordering} :
    o₁.then o₂ = .eq ↔ o₁ = .eq ∧ o₂ = .eq := by
  cases o₁ <;> cases o₂ <;> simp [Ordering.then]

theorem then_eq_gt {o₁ o₂ : Ordering} :
    o₁.then o₂ = .gt ↔ o₁ = .gt ∨ (o₁ = .eq ∧ o₂ = .gt) := by
  cases o₁ <;> cases o₂ <;> simp [Ordering.then]

theorem then_eq_lt {o₁ o₂ : Ordering} :
    o₁.then o₂ = .lt ↔ o₁ = .lt ∨ (o₁ = .eq ∧ o₂ = .lt) := by
  cases o₁ <;> cases o₂ <;> simp [Ordering.then]

theorem then_swap (o₁ o₂ : Ordering) :
    (o₁.then o₂).swap = o₁.swap.then o₂.swap := by
  cases o₁ <;> cases o₂ <;> rfl

/-- The properties a well-behaved three-way comparator enjoys: it is
antisymmetric under `Ordering.swap`, comparison-equal elements compare
identically against everything, and strict greater-than is transitive. -/
structure IsCmp {α : Type} (c : α → α → Ordering) : Prop where
  swap : ∀ a b, c a b = (c b a).swap
  eq_congr : ∀ {a b : α} (d : α), c a b = .eq → c a d = c b d
  gt_trans : ∀ {a b d : α}, c a b = .gt → c b d = .gt → c a d = .gt

theorem IsCmp.refl {α : Type} {c : α → α → Ordering} (hc : IsCmp c) (a : α) :
    c a a = .eq := by
  have h := hc.swap a a
  cases hx : c a a <;> rw [hx] at h <;> simp [Ordering.swap] at h

theorem IsCmp.eq_congr_r {α : Type} {c : α → α → Ordering} (hc : IsCmp c)
    {a b : α} (d : α) (h : c a b = .eq) : c d a = c d b := by
  have h' : c b a = .eq := by
    rw [hc.swap b a, h]; rfl
  rw [hc.swap d a, hc.swap d b, hc.eq_congr d h']

theorem IsCmp.ge_trans {α : Type} {c : α → α → Ordering} (hc : IsCmp c)
    {a b d : α} (h1 : c a b ≠ .lt) (h2 : c b d ≠ .lt) : c a d ≠ .lt := by
  cases hab : c a b with
  | lt => exact absurd hab h1
  | eq => rw [hc.eq_congr d hab]; exact h2
  | gt =>
    cases hbd : c b d with
    | lt => exact absurd hbd h2
    | eq =>
      have he : c a b = c a d := hc.eq_congr_r a hbd
      rw [he] at hab
      simp [hab]
    | gt => simp [hc.gt_trans hab hbd]

theorem IsCmp.then_comp {α : Type} {c₁ c₂ : α → α → Ordering}
    (h₁ : IsCmp c₁) (h₂ : IsCmp c₂) :
    IsCmp (fun a b => (c₁ a b).then (c₂ a b)) := by
  constructor
  · intro a b
    simp only [h₁.swap a b, h₂.swap a b, then_swap]
  · intro a b d h
    simp only [then_eq_eq] at h
    simp only [h₁.eq_congr d h.1, h₂.eq_congr d h.2]
  · intro a b d hab hbd
    simp only [then_eq_gt] at hab hbd ⊢
    rcases hab with hab1 | ⟨hab1, hab2⟩ <;>
      rcases hbd with hbd1 | ⟨hbd1, hbd2⟩
    · exact Or.inl (h₁.gt_trans hab1 hbd1)
    · have he : c₁ a b = c₁ a d := h₁.eq_congr_r a hbd1
      rw [he] at hab1
      exact Or.inl hab1
    · have he : c₁ a d = c₁ b d := h₁.eq_congr d hab1
      rw [← he] at hbd1
      exact Or.inl hbd1
    · have e1 : c₁ a d = .eq := by
        rw [h₁.eq_congr d hab1]; exact hbd1
      exact Or.inr ⟨e1, h₂.gt_trans hab2 hbd2⟩

theorem isCmp_cmp3 {α : Type} [LinearOrder α] : IsCmp (cmp3 (α := α)) := by
  constructor
  · intro a b
    unfold cmp3
    rcases lt_trichotomy a b with h | h | h
    · simp [h, not_lt_of_gt h, Ordering.swap]
    · simp [h, lt_irrefl, Ordering.swap]
    · simp [h, not_lt_of_gt h, Ordering.swap]
  · intro a b d h
    rw [(cmp3_eq_iff a b).mp h]
  · intro a b d h1 h2
    rw [cmp3_gt_iff] at h1 h2 ⊢
    exact lt_trans h2 h1

theorem isCmp_comp {α β : Type} {c : β → β → Ordering} (hc : IsCmp c)
    (f : α → β) : IsCmp (fun a b => c (f a) (f b)) := by
  constructor
  · intro a b; exact hc.swap (f a) (f b)
  · intro a b d h; exact hc.eq_congr (f d) h
  · intro a b d h1 h2; exact hc.gt_trans h1 h2

/-! ### Semantic versions

Modelled from the spec: the program parses tags with a third-party
semantic-version library that is not part of this repository, so the
`Version` data type and its total order are modelled from the spec's
data model: a `major.minor.patch` triple plus optional pre-release and
build metadata, compared by standard semantic-versioning precedence
(numeric identifiers compare numerically, alphanumeric compare
lexically, a pre-release version is less than the same version without
pre-release, build metadata is ignored by comparison). -/

/-- A pre-release identifier: numeric or alphanumeric. -/
inductive PreId : Type
  | num (n : Nat) : PreId
  | str (s : String) : PreId
deriving DecidableEq, Repr

/-- Compare pre-release identifiers: numeric compare numerically,
alphanumeric compare lexically, numeric is less than alphanumeric. -/
def cmpPreId : PreId → PreId → Ordering
  | .num m, .num n => cmp3 m n
  | .num _, .str _ => .lt
  | .str _, .num _ => .gt
  | .str s, .str t => cmp3 s t

/-- Lexicographic comparison of identifier sequences; a strict prefix is
smaller. -/
def cmpList {α : Type} (c : α → α → Ordering) : List α → List α → Ordering
  | [], [] => .eq
  | [], _ :: _ => .lt
  | _ :: _, [] => .gt
  | a :: as, b :: bs => (c a b).then (cmpList c as bs)

/-- Compare pre-release sequences: an empty pre-release (a release) is
greater than any non-empty one; otherwise lexicographic. -/
def cmpPre (p q : List PreId) : Ordering :=
  match p, q with
  | [], [] => .eq
  | [], _ :: _ => .gt
  | _ :: _, [] => .lt
  | a :: as, b :: bs => cmpList cmpPreId (a :: as) (b :: bs)

/-- Modelled from the spec: a parsed, totally-ordered representation of a
tag string — `major.minor.patch`, optional pre-release identifiers, and
build metadata that does not participate in comparison. -/
structure Version : Type where
  major : Nat
  minor : Nat
  patch : Nat
  pre : List PreId
  build : String
deriving DecidableEq, Repr

/-- Modelled from the spec: semantic-versioning precedence on versions.
Build metadata is ignored. -/
def cmpVersion (a b : Version) : Ordering :=
  ((cmp3 a.major b.major).then
    ((cmp3 a.minor b.minor).then
      ((cmp3 a.patch b.patch).then (cmpPre a.pre b.pre))))

/-- `GreaterThan` of the version library: strict order via comparison. -/
def Version.GreaterThan (a b : Version) : Bool :=
  cmpVersion a b == Ordering.gt

theorem isCmp_cmpPreId : IsCmp cmpPreId := by
  constructor
  · intro a b
    cases a <;> cases b <;> simp only [cmpPreId, Ordering.swap] <;>
      apply isCmp_cmp3.swap
  · intro a b d h
    cases a with
    | num m =>
      cases b with
      | num n =>
        simp only [cmpPreId] at h
        rw [cmp3_eq_iff] at h
        subst h
        rfl
      | str t => simp [cmpPreId] at h
    | str s =>
      cases b with
      | num n => simp [cmpPreId] at h
      | str t =>
        simp only [cmpPreId] at h
        rw [cmp3_eq_iff] at h
        subst h
        rfl
  · intro a b d h1 h2
    cases a <;> cases b <;> cases d <;>
      simp only [cmpPreId] at h1 h2 ⊢ <;>
      first
        | rfl
        | exact isCmp_cmp3.gt_trans h1 h2
        | exact Ordering.noConfusion h1
        | exact Ordering.noConfusion h2

theorem isCmp_cmpList {α : Type} {c : α → α → Ordering} (hc : IsCmp c) :
    IsCmp (cmpList c) := by
  constructor
  · intro as
    induction as with
    | nil => intro bs; cases bs <;> simp [cmpList, Ordering.swap]
    | cons a as ih =>
      intro bs
      cases bs with
      | nil => simp [cmpList, Ordering.swap]
      | cons b bs =>
        simp only [cmpList]
        rw [hc.swap a b, ih bs, then_swap]
  · intro as
    induction as with
    | nil =>
      intro bs d h
      cases bs with
      | nil => rfl
      | cons b bs => simp [cmpList] at h
    | cons a as ih =>
      intro bs d h
      cases bs with
      | nil => simp [cmpList] at h
      | cons b bs =>
        simp only [cmpList, then_eq_eq] at h
        cases d with
        | nil => rfl
        | cons e ds =>
          simp only [cmpList]
          rw [hc.eq_congr e h.1, ih ds h.2]
  · intro as
    induction as with
    | nil =>
      intro bs ds h1 h2
      cases bs <;> simp [cmpList] at h1
    | cons a as ih =>
      intro bs ds h1 h2
      cases bs with
      | nil => cases ds <;> simp [cmpList] at h2
      | cons b bs =>
        cases ds with
        | nil =>
          cases as <;> simp [cmpList]
        | cons d ds =>
          simp only [cmpList, then_eq_gt] at h1 h2 ⊢
          rcases h1 with h1a | ⟨h1a, h1b⟩ <;>
            rcases h2 with h2a | ⟨h2a, h2b⟩
          · exact Or.inl (hc.gt_trans h1a h2a)
          · have he : c a b = c a d := hc.eq_congr_r a h2a
            rw [he] at h1a
            exact Or.inl h1a
          · have he : c a d = c b d := hc.eq_congr d h1a
            rw [← he] at h2a
            exact Or.inl h2a
          · have e1 : c a d = .eq := by
              rw [hc.eq_congr d h1a]; exact h2a
            exact Or.inr ⟨e1, ih h1b h2b⟩

theorem isCmp_cmpPre : IsCmp cmpPre := by
  have hl : IsCmp (cmpList cmpPreId) := isCmp_cmpList isCmp_cmpPreId
  constructor
  · intro p q
    cases p <;> cases q <;> simp only [cmpPre, Ordering.swap] <;> try rfl
    exact hl.swap _ _
  · intro p q d h
    cases p with
    | nil =>
      cases q with
      | nil => rfl
      | cons b qs => simp [cmpPre] at h
    | cons a ps =>
      cases q with
      | nil => simp [cmpPre] at h
      | cons b qs =>
        simp only [cmpPre] at h
        have hq : cmpPreId a b = .eq ∧ cmpList cmpPreId ps qs = .eq := by
          simpa only [cmpList, then_eq_eq] using h
        cases d with
        | nil => rfl
        | cons e ds =>
          simp only [cmpPre]
          exact hl.eq_congr (e :: ds) h
  · intro p q d h1 h2
    cases p with
    | nil =>
      cases q with
      | nil => simpa [cmpPre] using h2
      | cons b qs =>
        cases d with
        | nil => simp [cmpPre] at h2
        | cons e ds => rfl
    | cons a ps =>
      cases q with
      | nil => simp [cmpPre] at h1
      | cons b qs =>
        cases d with
        | nil => simp [cmpPre] at h2
        | cons e ds =>
          simp only [cmpPre] at h1 h2 ⊢
          exact hl.gt_trans h1 h2

/-! ### Tag filtering (`src/main.go`: `isIncluded`, `isExcluded`,
`filterTags`)

A `TOMLRegexp` holds a compiled regular expression; the only operation
the program performs on it is `MatchString`, so it is embedded as its
match function. -/

/-- A compiled pattern matcher, embedded as its `MatchString` function. -/
def TOMLRegexp : Type := String → Bool

/-- `isIncluded` from `src/main.go`: with no include patterns every tag
passes; otherwise the tag must match at least one include pattern. -/
def isIncluded (s : String) (includes : List TOMLRegexp) : Bool :=
  if includes.isEmpty then true
  else includes.any (fun rex => rex s)

/-- `isExcluded` from `src/main.go`: with no exclude patterns no tag is
excluded; otherwise a tag matching any exclude pattern is excluded. -/
def isExcluded (s : String) (excludes : List TOMLRegexp) : Bool :=
  if excludes.isEmpty then false
  else excludes.any (fun rex => rex s)

/-- `filterTags` from `src/main.go`: keep the tags that pass inclusion
and are not excluded, in input order. -/
def filterTags : List String → List TOMLRegexp → List TOMLRegexp → List String
  | [], _, _ => []
  | tag :: rest, incl, excl =>
    if !isIncluded tag incl then filterTags rest incl excl
    else if isExcluded tag excl then filterTags rest incl excl
    else tag :: filterTags rest incl excl

/-! ### Data model of the program -/

/-- A watched image from the configuration: a registry image name plus
include/exclude pattern sets (`WatchedImage` in `src/main.go`). -/
structure WatchedImage : Type where
  Name : String
  Include : List TOMLRegexp
  Exclude : List TOMLRegexp

/-- A resolved, tagged image reference (`reference.NamedTagged`), of
which the program uses only `Name()` and `Tag()`. -/
structure NamedTagged : Type where
  Name : String
  Tag : String
deriving DecidableEq, Repr

/-- A running task instance (`Instance` in `src/main.go`). -/
structure Instance : Type where
  Namespace : String
  Job : String
  Group : String
  Task : String
  Image : NamedTagged
deriving DecidableEq, Repr

/-- One report row appended by the matcher loop in `run` (rendering to
display strings is left to the output collaborator). -/
structure Row : Type where
  Namespace : String
  Job : String
  Group : String
  Task : String
  Image : String
  Latest : Version
  Current : Version
  UpdateAvailable : Bool
deriving DecidableEq, Repr

/-! ### Newest-version selection (`getNewestVersion`) -/

/-- The loop body of `getNewestVersion`: replace the running newest
element whenever a strictly greater one appears. -/
def newestStep (newestVersion w : Version) : Version :=
  if w.GreaterThan newestVersion then w else newestVersion

/-- `getNewestVersion` from `src/main.go`: scan the slice keeping the
running element whenever a strictly greater one appears.  The Go
function returns a `nil` pointer on an empty slice, embedded as
`none`. -/
def getNewestVersion (versions : List Version) : Option Version :=
  match versions with
  | [] => none
  | v :: rest => some (rest.foldl newestStep v)

/-! ### Tag resolution (`getTags`, `getImageTagMapping`,
`getImageVersionMapping`)

The registry transport is the external collaborator `fetchRaw`: for an
image name it yields either the raw tag list of the registry or a
transport error.  The version parser of the third-party library is the
external collaborator `parse`.  The Go code fans the per-image work out
over an `errgroup` and aggregates into a lock-guarded map; the embedding
runs the same per-image computations sequentially and aggregates into an
association list, with the first error in list order standing in for the
first error to complete (which error wins among several concurrent
failures is unspecified). -/

/-- `getTags` from `src/main.go` with the transport abstracted: fetch the
raw tag list for the watched image, then filter it by the image's
include/exclude patterns. -/
def getTags (fetchRaw : String → Except String (List String))
    (watched : WatchedImage) : Except String (List String) :=
  match fetchRaw watched.Name with
  | .error e => .error e
  | .ok tags => .ok (filterTags tags watched.Include watched.Exclude)

/-- `getImageTagMapping` from `src/main.go`: run `getTags` for every
watched image; any failure aborts the whole resolution with that error
and no mapping. -/
def getImageTagMapping (fetchRaw : String → Except String (List String)) :
    List WatchedImage → Except String (List (String × List String))
  | [] => .ok []
  | watch :: rest =>
    match getTags fetchRaw watch with
    | .error e => .error e
    | .ok tags =>
      match getImageTagMapping fetchRaw rest with
      | .error e => .error e
      | .ok imageTags => .ok ((watch.Name, tags) :: imageTags)

/-- The inner loop of `getImageVersionMapping`: parse every tag of one
image, failing on the first unparsable tag. -/
def parseTagList (parse : String → Option Version) :
    List String → Option (List Version)
  | [] => some []
  | tagStr :: rest =>
    match parse tagStr with
    | none => none
    | some ver =>
      match parseTagList parse rest with
      | none => none
      | some vers => some (ver :: vers)

/-- The parsing loop of `getImageVersionMapping`: parse the tag lists of
all images in the mapping, failing on the first unparsable tag. -/
def parseMapping (parse : String → Option Version) :
    List (String × List String) → Except String (List (String × List Version))
  | [] => .ok []
  | (imageName, tags) :: rest =>
    match parseTagList parse tags with
    | none => .error ("couldn't parse image tag version for " ++ imageName)
    | some vers =>
      match parseMapping parse rest with
      | .error e => .error e
      | .ok parsedImageTags => .ok ((imageName, vers) :: parsedImageTags)

/-- `getImageVersionMapping` from `src/main.go`: resolve the tag mapping,
then parse every tag into a version; any fetch or parse failure yields
an error and no mapping. -/
def getImageVersionMapping (fetchRaw : String → Except String (List String))
    (parse : String → Option Version) (images : List WatchedImage) :
    Except String (List (String × List Version)) :=
  match getImageTagMapping fetchRaw images with
  | .error e => .error e
  | .ok imageTags => parseMapping parse imageTags

/-! ### The matcher loop of `run` -/

/-- The per-instance matcher loop of `run` in `src/main.go`: look the
instance's image name up in the version mapping (absent: skip the
instance), parse the current tag (unparsable: fail the run), and compare
the newest resolved version against it.  When the mapping entry is an
empty slice, `getNewestVersion` returns a Go `nil` pointer and
`latest.GreaterThan(current)` faults; the fault is embedded as the error
"runtime error: nil pointer dereference". -/
def matchInstances (parse : String → Option Version)
    (parsedImageTags : List (String × List Version)) :
    List Instance → Except String (List Row)
  | [] => .ok []
  | inst :: rest =>
    match parsedImageTags.lookup inst.Image.Name with
    | none => matchInstances parse parsedImageTags rest
    | some versions =>
      match parse inst.Image.Tag with
      | none => .error ("Malformed version: " ++ inst.Image.Tag)
      | some current =>
        match getNewestVersion versions with
        | none => .error "runtime error: nil pointer dereference"
        | some latest =>
          match matchInstances parse parsedImageTags rest with
          | .error e => .error e
          | .ok rows =>
            .ok ({ Namespace := inst.Namespace
                   Job := inst.Job
                   Group := inst.Group
                   Task := inst.Task
                   Image := inst.Image.Name
                   Latest := latest
                   Current := current
                   UpdateAvailable := latest.GreaterThan current } :: rows)

/-! ### Instance sorting (`sortInstances`, `getAllInstances`) -/

/-- The `less` closure of `sortInstances` in `src/main.go`: strict
reverse-lexicographic comparison by namespace, job, group, task. -/
def instanceLess (a b : Instance) : Bool :=
  if a.Namespace ≠ b.Namespace then decide (a.Namespace > b.Namespace)
  else if a.Job ≠ b.Job then decide (a.Job > b.Job)
  else if a.Group ≠ b.Group then decide (a.Group > b.Group)
  else if a.Task ≠ b.Task then decide (a.Task > b.Task)
  else false

/-- `sortInstances` from `src/main.go`: `sort.Slice` with `instanceLess`.
Go's `sort.Slice` is an unstable sort whose contract is that the result
is a permutation of the input that is sorted with respect to `less`;
the embedding realizes that contract with a merge sort on the
complementary relation. -/
def sortInstances (instances : List Instance) : List Instance :=
  instances.mergeSort (fun a b => !instanceLess b a)

/-- The accumulation loop of `getAllInstances`: enumerate instances per
configured namespace through the external scheduler collaborator,
failing on the first scheduler error. -/
def collectInstances (getInstances : String → Except String (List Instance)) :
    List String → Except String (List Instance)
  | [] => .ok []
  | ns :: rest =>
    match getInstances ns with
    | .error e => .error e
    | .ok instances =>
      match collectInstances getInstances rest with
      | .error e => .error e
      | .ok allInstances => .ok (instances ++ allInstances)

/-- `getAllInstances` from `src/main.go`: gather instances across the
configured namespaces, then sort them. -/
def getAllInstances (getInstances : String → Except String (List Instance))
    (namespaces : List String) : Except String (List Instance) :=
  match collectInstances getInstances namespaces with
  | .error e => .error e
  | .ok allInstances => .ok (sortInstances allInstances)

/-! ### Config normalization (`parseConfigFile`) -/

/-- The normalization loop of `parseConfigFile` in `src/main.go`: rewrite
every watched image name to its canonical form through the external
normalizer (`reference.ParseNormalizedNamed` followed by `.Name()`),
aborting config parsing on the first name that fails to normalize. -/
def normalizeImages (norm : String → Option String) :
    List WatchedImage → Except String (List WatchedImage)
  | [] => .ok []
  | image :: rest =>
    match norm image.Name with
    | none => .error ("invalid reference format: " ++ image.Name)
    | some canonical =>
      match normalizeImages norm rest with
      | .error e => .error e
      | .ok images => .ok ({ image with Name := canonical } :: images)

theorem isCmp_cmpVersion : IsCmp cmpVersion := by
  have h1 : IsCmp (fun a b : Version => cmp3 a.major b.major) :=
    isCmp_comp isCmp_cmp3 Version.major
  have h2 : IsCmp (fun a b : Version => cmp3 a.minor b.minor) :=
    isCmp_comp isCmp_cmp3 Version.minor
  have h3 : IsCmp (fun a b : Version => cmp3 a.patch b.patch) :=
    isCmp_comp isCmp_cmp3 Version.patch
  have h4 : IsCmp (fun a b : Version => cmpPre a.pre b.pre) :=
    isCmp_comp isCmp_cmpPre Version.pre
  exact h1.then_comp (h2.then_comp (h3.then_comp h4))

/-! ### Helper lemmas on the filter -/

theorem isIncluded_iff (t : String) (incl : List TOMLRegexp) :
    isIncluded t incl = true ↔ incl = [] ∨ ∃ m ∈ incl, m t = true := by
  cases incl with
  | nil => simp [isIncluded]
  | cons m ms => simp [isIncluded, List.any_eq_true]

theorem isExcluded_false_iff (t : String) (excl : List TOMLRegexp) :
    isExcluded t excl = false ↔ ∀ m ∈ excl, m t = false := by
  cases excl with
  | nil => simp [isExcluded]
  | cons m ms =>
    simp [isExcluded, List.any_eq_false]

theorem filterTags_eq_filter (tags : List String) (incl excl : List TOMLRegexp) :
    filterTags tags incl excl =
      tags.filter (fun t => isIncluded t incl && !isExcluded t excl) := by
  induction tags with
  | nil => rfl
  | cons tag rest ih =>
    cases hi : isIncluded tag incl <;> cases he : isExcluded tag excl <;>
      simp [filterTags, hi, he, ih, List.filter_cons]

/-! ### Helper lemmas on newest-version selection -/

theorem greaterThan_iff (a b : Version) :
    a.GreaterThan b = true ↔ cmpVersion a b = .gt := by
  unfold Version.GreaterThan
  cases cmpVersion a b <;> decide

theorem newestStep_ge_left (v w : Version) :
    cmpVersion (newestStep v w) v ≠ .lt := by
  unfold newestStep
  by_cases h : w.GreaterThan v = true
  · rw [if_pos h]
    rw [greaterThan_iff] at h
    simp [h]
  · rw [if_neg h]
    simp [isCmp_cmpVersion.refl v]

theorem newestStep_ge_right (v w : Version) :
    cmpVersion (newestStep v w) w ≠ .lt := by
  unfold newestStep
  by_cases h : w.GreaterThan v = true
  · rw [if_pos h]
    simp [isCmp_cmpVersion.refl w]
  · rw [if_neg h]
    rw [greaterThan_iff] at h
    rw [isCmp_cmpVersion.swap v w]
    cases hx : cmpVersion w v with
    | lt => simp [Ordering.swap]
    | eq => simp [Ordering.swap]
    | gt => exact absurd hx h

theorem foldl_newestStep_mem (rest : List Version) (v : Version) :
    rest.foldl newestStep v ∈ v :: rest := by
  induction rest generalizing v with
  | nil => simp
  | cons w ws ih =>
    simp only [List.foldl_cons]
    rcases List.mem_cons.mp (ih (newestStep v w)) with h | h
    · rw [h]
      unfold newestStep
      by_cases hg : w.GreaterThan v = true
      · simp [hg]
      · simp [hg]
    · simp [h]

theorem foldl_newestStep_ge (rest : List Version) (v : Version) :
    ∀ x ∈ v :: rest, cmpVersion (rest.foldl newestStep v) x ≠ .lt := by
  induction rest generalizing v with
  | nil =>
    intro x hx
    rcases List.mem_cons.mp hx with h | h
    · rw [h]
      simp [isCmp_cmpVersion.refl]
    · exact absurd h (List.not_mem_nil x)
  | cons w ws ih =>
    intro x hx
    simp only [List.foldl_cons]
    have hhead := ih (newestStep v w) (newestStep v w) (List.mem_cons_self _ _)
    rcases List.mem_cons.mp hx with h | h
    · rw [h]
      exact isCmp_cmpVersion.ge_trans hhead (newestStep_ge_left v w)
    · rcases List.mem_cons.mp h with h' | h'
      · rw [h']
        exact isCmp_cmpVersion.ge_trans hhead (newestStep_ge_right v w)
      · exact ih (newestStep v w) x (List.mem_cons_of_mem _ h')

theorem getNewestVersion_isMax {l : List Version} {m : Version}
    (h : getNewestVersion l = some m) :
    m ∈ l ∧ ∀ w ∈ l, cmpVersion m w ≠ .lt := by
  cases l with
  | nil => simp [getNewestVersion] at h
  | cons v rest =>
    simp only [getNewestVersion, Option.some.injEq] at h
    subst h
    exact ⟨foldl_newestStep_mem rest v, foldl_newestStep_ge rest v⟩

/-! ### Claims about the tag filter -/

/-- C3: a tag appears in the output of `filterTags` iff it occurs in the
input, passes inclusion (the include set is empty or the tag matches at
least one include matcher) and matches no exclude matcher (exclude wins
over include); moreover the output is exactly the sublist of the input
selected by that predicate, so the original relative order is preserved
and no deduplication is imposed. -/
theorem filterTags_characterization (tags : List String)
    (incl excl : List TOMLRegexp) :
    filterTags tags incl excl =
      tags.filter (fun t => isIncluded t incl && !isExcluded t excl) ∧
    (filterTags tags incl excl).Sublist tags ∧
    ∀ t : String,
      t ∈ filterTags tags incl excl ↔
        t ∈ tags ∧ (incl = [] ∨ ∃ m ∈ incl, m t = true) ∧
          ∀ m ∈ excl, m t = false := by
  refine ⟨filterTags_eq_filter tags incl excl, ?_, ?_⟩
  · rw [filterTags_eq_filter]
    exact List.filter_sublist _
  · intro t
    rw [filterTags_eq_filter, List.mem_filter]
    simp only [Bool.and_eq_true, Bool.not_eq_true']
    rw [isIncluded_iff, isExcluded_false_iff]

/-- C9: filtering its own output with the same include and exclude sets
returns that output unchanged — `filterTags` is idempotent. -/
theorem filterTags_idempotent (tags : List String)
    (incl excl : List TOMLRegexp) :
    filterTags (filterTags tags incl excl) incl excl =
      filterTags tags incl excl := by
  rw [filterTags_eq_filter, filterTags_eq_filter tags, List.filter_filter]
  simp [Bool.and_self]

/-! ### Claims about newest-version selection -/

/-- C4 is refuted as stated: versions that differ only in build metadata
are distinct values that compare equal, and `getNewestVersion` keeps the
first maximal element it sees, so permuting the input changes the
returned version. -/
theorem getNewestVersion_permutation_counterexample :
    List.Perm
        [Version.mk 1 0 0 [] "alpha", Version.mk 1 0 0 [] "beta"]
        [Version.mk 1 0 0 [] "beta", Version.mk 1 0 0 [] "alpha"] ∧
      getNewestVersion
          [Version.mk 1 0 0 [] "alpha", Version.mk 1 0 0 [] "beta"] =
        some (Version.mk 1 0 0 [] "alpha") ∧
      getNewestVersion
          [Version.mk 1 0 0 [] "beta", Version.mk 1 0 0 [] "alpha"] =
        some (Version.mk 1 0 0 [] "beta") ∧
      Version.mk 1 0 0 [] "alpha" ≠ Version.mk 1 0 0 [] "beta" := by
  refine ⟨List.Perm.swap _ _ _, by decide, by decide, by decide⟩

/-- C4 (amended): for every non-empty version sequence,
`getNewestVersion` returns a greatest element under the order — an
element of the input that no input element strictly exceeds — and under
any permutation of the input the selected versions compare equal, i.e.
permutation invariance holds up to comparison-equality (not up to
identity of the returned value, which among comparison-equal maxima is
the first one encountered). -/
theorem getNewestVersion_greatest (l : List Version) (h : l ≠ []) :
    ∃ m, getNewestVersion l = some m ∧ m ∈ l ∧
      (∀ w ∈ l, cmpVersion m w ≠ .lt) ∧
      ∀ (l' : List Version) (m' : Version), l.Perm l' →
        getNewestVersion l' = some m' → cmpVersion m m' = .eq := by
  cases l with
  | nil => exact absurd rfl h
  | cons v rest =>
    refine ⟨rest.foldl newestStep v, rfl, foldl_newestStep_mem rest v,
      foldl_newestStep_ge rest v, ?_⟩
    intro l' m' hperm h'
    have hmax' := getNewestVersion_isMax h'
    have hmem : rest.foldl newestStep v ∈ l' :=
      hperm.mem_iff.mp (foldl_newestStep_mem rest v)
    have hmem' : m' ∈ v :: rest := hperm.mem_iff.mpr hmax'.1
    have h1 : cmpVersion (rest.foldl newestStep v) m' ≠ .lt :=
      foldl_newestStep_ge rest v m' hmem'
    have h2 : cmpVersion m' (rest.foldl newestStep v) ≠ .lt :=
      hmax'.2 _ hmem
    have hs := isCmp_cmpVersion.swap (rest.foldl newestStep v) m'
    cases hx : cmpVersion (rest.foldl newestStep v) m' with
    | lt => exact absurd hx h1
    | eq => rfl
    | gt =>
      rw [hx] at hs
      cases hy : cmpVersion m' (rest.foldl newestStep v) with
      | lt => exact absurd hy h2
      | eq => rw [hy] at hs; exact absurd hs (by decide)
      | gt => rw [hy] at hs; exact absurd hs (by decide)

/-- Witness for the amended C4 at a concrete input. -/
theorem getNewestVersion_greatest_witness :
    ∃ m, getNewestVersion [Version.mk 1 2 0 [] ""] = some m ∧
      m ∈ [Version.mk 1 2 0 [] ""] ∧
      (∀ w ∈ [Version.mk 1 2 0 [] ""], cmpVersion m w ≠ .lt) ∧
      ∀ (l' : List Version) (m' : Version),
        List.Perm [Version.mk 1 2 0 [] ""] l' →
        getNewestVersion l' = some m' → cmpVersion m m' = .eq :=
  getNewestVersion_greatest [Version.mk 1 2 0 [] ""] (by decide)

/-! ### Claims about the matcher loop -/

/-- C5: in every report row the matcher produces, `UpdateAvailable` is
true iff the resolved latest version is strictly greater than the
instance's current parsed version under the total order; when they
compare equal no update is reported. -/
theorem matchInstances_updateAvailable
    (parse : String → Option Version)
    (parsedImageTags : List (String × List Version))
    (instances : List Instance) (rows : List Row)
    (h : matchInstances parse parsedImageTags instances = .ok rows) :
    ∀ row ∈ rows,
      (row.UpdateAvailable = true ↔ cmpVersion row.Latest row.Current = .gt) := by
  induction instances generalizing rows with
  | nil =>
    simp only [matchInstances] at h
    cases h
    intro row hrow
    cases hrow
  | cons inst rest ih =>
    cases hl : parsedImageTags.lookup inst.Image.Name with
    | none =>
      simp only [matchInstances, hl] at h
      exact ih rows h
    | some versions =>
      cases hp : parse inst.Image.Tag with
      | none =>
        simp only [matchInstances, hl, hp] at h
        exact Except.noConfusion h
      | some current =>
        cases hn : getNewestVersion versions with
        | none =>
          simp only [matchInstances, hl, hp, hn] at h
          exact Except.noConfusion h
        | some latest =>
          cases hr : matchInstances parse parsedImageTags rest with
          | error e =>
            simp only [matchInstances, hl, hp, hn, hr] at h
            exact Except.noConfusion h
          | ok rows' =>
            simp only [matchInstances, hl, hp, hn, hr] at h
            cases h
            intro row hrow
            rcases List.mem_cons.mp hrow with heq | hmem
            · subst heq
              exact greaterThan_iff latest current
            · exact ih rows' hr row hmem

/-- Witness for C5 at a concrete input: one watched instance at version
1.0.0 whose latest resolved version is 1.2.0. -/
theorem matchInstances_updateAvailable_witness :
    (Row.mk "default" "job" "group" "task" "docker.io/library/app"
          (Version.mk 1 2 0 [] "") (Version.mk 1 0 0 [] "")
          true).UpdateAvailable = true ↔
      cmpVersion
          (Row.mk "default" "job" "group" "task" "docker.io/library/app"
            (Version.mk 1 2 0 [] "") (Version.mk 1 0 0 [] "") true).Latest
          (Row.mk "default" "job" "group" "task" "docker.io/library/app"
            (Version.mk 1 2 0 [] "") (Version.mk 1 0 0 [] "") true).Current =
        .gt :=
  matchInstances_updateAvailable
    (fun s => if s = "1.0.0" then some (Version.mk 1 0 0 [] "") else none)
    [("docker.io/library/app", [Version.mk 1 2 0 [] ""])]
    [Instance.mk "default" "job" "group" "task"
      (NamedTagged.mk "docker.io/library/app" "1.0.0")]
    [Row.mk "default" "job" "group" "task" "docker.io/library/app"
      (Version.mk 1 2 0 [] "") (Version.mk 1 0 0 [] "") true]
    rfl
    (Row.mk "default" "job" "group" "task" "docker.io/library/app"
      (Version.mk 1 2 0 [] "") (Version.mk 1 0 0 [] "") true)
    (List.mem_cons_self _ _)

/-- C6: an instance whose image name has no entry in the version mapping
produces no report row and no error — the matcher's result on a list
containing such an instance equals its result on the same list with the
instance removed, so every other instance and row is unaffected. -/
theorem matchInstances_skips_unwatched
    (parse : String → Option Version)
    (parsedImageTags : List (String × List Version))
    (pre post : List Instance) (inst : Instance)
    (h : parsedImageTags.lookup inst.Image.Name = none) :
    matchInstances parse parsedImageTags (pre ++ inst :: post) =
      matchInstances parse parsedImageTags (pre ++ post) := by
  induction pre with
  | nil =>
    simp only [List.nil_append, matchInstances, h]
  | cons p ps ih =>
    have ih' : matchInstances parse parsedImageTags
          (List.append ps (inst :: post)) =
        matchInstances parse parsedImageTags (List.append ps post) := ih
    simp only [List.cons_append, matchInstances, ih']

/-- Witness for C6 at a concrete input: the unwatched instance between
two watched ones contributes nothing. -/
theorem matchInstances_skips_unwatched_witness :
    matchInstances (fun _ => some (Version.mk 1 0 0 [] ""))
        [("docker.io/library/app", [Version.mk 1 2 0 [] ""])]
        ([Instance.mk "a" "j" "g" "t"
            (NamedTagged.mk "docker.io/library/app" "1.0.0")] ++
          Instance.mk "b" "j" "g" "t"
            (NamedTagged.mk "docker.io/library/db" "1.0.0") ::
          [Instance.mk "c" "j" "g" "t"
            (NamedTagged.mk "docker.io/library/app" "1.2.0")]) =
      matchInstances (fun _ => some (Version.mk 1 0 0 [] ""))
        [("docker.io/library/app", [Version.mk 1 2 0 [] ""])]
        ([Instance.mk "a" "j" "g" "t"
            (NamedTagged.mk "docker.io/library/app" "1.0.0")] ++
          [Instance.mk "c" "j" "g" "t"
            (NamedTagged.mk "docker.io/library/app" "1.2.0")]) :=
  matchInstances_skips_unwatched _ _ _ _ _ (by decide)

/-- C7 is refuted as stated: an unparsable current tag on an instance
whose image is absent from the version mapping does not fail the run;
the instance is skipped before its tag is ever parsed, and the matcher
still succeeds. -/
theorem matchInstances_unparsable_skipped_counterexample :
    (fun _ : String => (none : Option Version))
        (NamedTagged.mk "docker.io/library/app" "latest").Tag = none ∧
      matchInstances (fun _ => none) []
        [Instance.mk "default" "job" "group" "task"
          (NamedTagged.mk "docker.io/library/app" "latest")] = .ok [] :=
  ⟨rfl, rfl⟩

/-- C7 (amended): if any instance whose image name is present in the
version mapping has a current tag that fails to parse, the whole run
fails — the matcher returns an error and produces no row list (not even
a partial one).  An unparsable tag on an instance whose image is absent
from the mapping does not by itself fail the run. -/
theorem matchInstances_parse_failure_fails_run
    (parse : String → Option Version)
    (parsedImageTags : List (String × List Version))
    (instances : List Instance)
    (h : ∃ inst ∈ instances,
        (parsedImageTags.lookup inst.Image.Name).isSome = true ∧
        parse inst.Image.Tag = none) :
    ∃ e, matchInstances parse parsedImageTags instances = .error e := by
  induction instances with
  | nil =>
    rcases h with ⟨inst, hmem, _⟩
    cases hmem
  | cons i rest ih =>
    rcases h with ⟨inst, hmem, hsome, hnone⟩
    cases hl : parsedImageTags.lookup i.Image.Name with
    | none =>
      simp only [matchInstances, hl]
      apply ih
      rcases List.mem_cons.mp hmem with heq | hmem'
      · subst heq
        rw [hl] at hsome
        simp at hsome
      · exact ⟨inst, hmem', hsome, hnone⟩
    | some versions =>
      cases hp : parse i.Image.Tag with
      | none =>
        refine ⟨"Malformed version: " ++ i.Image.Tag, ?_⟩
        simp only [matchInstances, hl, hp]
      | some current =>
        cases hn : getNewestVersion versions with
        | none =>
          refine ⟨"runtime error: nil pointer dereference", ?_⟩
          simp only [matchInstances, hl, hp, hn]
        | some latest =>
          have hrest : ∃ inst ∈ rest,
              (parsedImageTags.lookup inst.Image.Name).isSome = true ∧
              parse inst.Image.Tag = none := by
            rcases List.mem_cons.mp hmem with heq | hmem'
            · subst heq
              rw [hp] at hnone
              cases hnone
            · exact ⟨inst, hmem', hsome, hnone⟩
          rcases ih hrest with ⟨e, he⟩
          refine ⟨e, ?_⟩
          simp only [matchInstances, hl, hp, hn, he]

/-- Witness for the amended C7 at a concrete input. -/
theorem matchInstances_parse_failure_witness :
    ∃ e, matchInstances (fun _ => (none : Option Version))
        [("docker.io/library/app", [Version.mk 1 0 0 [] ""])]
        [Instance.mk "default" "job" "group" "task"
          (NamedTagged.mk "docker.io/library/app" "1.0.0")] = .error e :=
  matchInstances_parse_failure_fails_run _ _ _
    ⟨Instance.mk "default" "job" "group" "task"
        (NamedTagged.mk "docker.io/library/app" "1.0.0"),
      List.mem_cons_self _ _, by decide, rfl⟩

/-- C1 is contradicted by the code (the spec's skip rule is the intent;
the code is the slip): when an image name is present in the version
mapping but maps to zero parsed versions, the matcher does not skip the
instance — it calls `getNewestVersion` on the empty sequence, obtains
Go's `nil`, and the matching loop faults with a nil-pointer dereference
at `latest.GreaterThan(current)`. -/
theorem matcher_empty_versions_faults :
    getNewestVersion [] = none ∧
      matchInstances (fun _ => some (Version.mk 1 0 0 [] ""))
        [("docker.io/library/app", [])]
        [Instance.mk "default" "job" "group" "task"
          (NamedTagged.mk "docker.io/library/app" "1.0.0")] =
      .error "runtime error: nil pointer dereference" :=
  ⟨rfl, rfl⟩

/-! ### Claims about concurrent tag resolution -/

theorem getImageTagMapping_ok_spec
    (fetchRaw : String → Except String (List String))
    (images : List WatchedImage) (m : List (String × List String))
    (h : getImageTagMapping fetchRaw images = .ok m) :
    ∀ img ∈ images, ∃ tags, fetchRaw img.Name = .ok tags ∧
      (img.Name, filterTags tags img.Include img.Exclude) ∈ m := by
  induction images generalizing m with
  | nil =>
    intro img hmem
    cases hmem
  | cons watch rest ih =>
    intro img hmem
    cases hf : fetchRaw watch.Name with
    | error e =>
      simp only [getImageTagMapping, getTags, hf] at h
      exact Except.noConfusion h
    | ok tags =>
      cases hr : getImageTagMapping fetchRaw rest with
      | error e =>
        simp only [getImageTagMapping, getTags, hf, hr] at h
        exact Except.noConfusion h
      | ok m' =>
        simp only [getImageTagMapping, getTags, hf, hr] at h
        cases h
        rcases List.mem_cons.mp hmem with heq | hmem'
        · subst heq
          exact ⟨tags, hf, List.mem_cons_self _ _⟩
        · rcases ih m' hr img hmem' with ⟨tags', hf', hm'⟩
          exact ⟨tags', hf', List.mem_cons_of_mem _ hm'⟩

theorem parseMapping_ok_spec (parse : String → Option Version)
    (m : List (String × List String)) (r : List (String × List Version))
    (h : parseMapping parse m = .ok r) :
    ∀ p ∈ m, parseTagList parse p.2 ≠ none := by
  induction m generalizing r with
  | nil =>
    intro p hp
    cases hp
  | cons entry rest ih =>
    intro p hp
    obtain ⟨imageName, tags⟩ := entry
    cases hpt : parseTagList parse tags with
    | none =>
      simp only [parseMapping, hpt] at h
      exact Except.noConfusion h
    | some vers =>
      cases hr : parseMapping parse rest with
      | error e =>
        simp only [parseMapping, hpt, hr] at h
        exact Except.noConfusion h
      | ok rr =>
        rcases List.mem_cons.mp hp with heq | hp'
        · subst heq
          simp [hpt]
        · exact ih rr hr p hp'

/-- C2: if fetching fails, or some filtered tag fails to parse as a
version, for any one watched image, the whole resolution returns an
error and no mapping at all — the caller never observes a partial
mapping with the successful images' results. -/
theorem getImageVersionMapping_failure_propagation
    (fetchRaw : String → Except String (List String))
    (parse : String → Option Version) (images : List WatchedImage)
    (h : ∃ img ∈ images,
        (∃ e, fetchRaw img.Name = .error e) ∨
        (∃ tags, fetchRaw img.Name = .ok tags ∧
          parseTagList parse (filterTags tags img.Include img.Exclude) =
            none)) :
    ∃ e, getImageVersionMapping fetchRaw parse images = .error e := by
  cases hres : getImageVersionMapping fetchRaw parse images with
  | error e => exact ⟨e, rfl⟩
  | ok r =>
    exfalso
    unfold getImageVersionMapping at hres
    cases htm : getImageTagMapping fetchRaw images with
    | error e =>
      rw [htm] at hres
      cases hres
    | ok m =>
      rw [htm] at hres
      rcases h with ⟨img, hmem, hcase⟩
      rcases getImageTagMapping_ok_spec fetchRaw images m htm img hmem with
        ⟨tags, hf, hmem2⟩
      rcases hcase with ⟨e, he⟩ | ⟨tags', hf', hpt⟩
      · rw [hf] at he
        cases he
      · rw [hf] at hf'
        injection hf' with hf''
        subst hf''
        exact parseMapping_ok_spec parse m r hres _ hmem2 hpt

/-- Witness for C2 at a concrete input: a single watched image whose
fetch fails with a transport error. -/
theorem getImageVersionMapping_failure_witness :
    ∃ e, getImageVersionMapping
        (fun _ => .error "connection refused") (fun _ => none)
        [WatchedImage.mk "docker.io/library/app" [] []] = .error e :=
  getImageVersionMapping_failure_propagation _ _ _
    ⟨WatchedImage.mk "docker.io/library/app" [] [],
      List.mem_cons_self _ _, Or.inl ⟨"connection refused", rfl⟩⟩

/-! ### Claims about config normalization -/

/-- C10: every watched image name is normalized to canonical form before
use as a mapping key.  Assuming canonical names are fixed points of the
normalizer (the defining property of a canonical form), every name in a
successfully parsed configuration is canonical, and re-normalizing the
parsed configuration is a no-op — hence a configuration written with
raw names and one written with their canonical forms produce identical
keys, and the matcher's lookups resolve identically for both. -/
theorem normalizeImages_canonical_keys
    (norm : String → Option String)
    (hfix : ∀ s c, norm s = some c → norm c = some c)
    (images images' : List WatchedImage)
    (h : normalizeImages norm images = .ok images') :
    (∀ img ∈ images', norm img.Name = some img.Name) ∧
      normalizeImages norm images' = .ok images' := by
  induction images generalizing images' with
  | nil =>
    cases h
    constructor
    · intro img hmem
      cases hmem
    · rfl
  | cons image rest ih =>
    cases hn : norm image.Name with
    | none =>
      simp only [normalizeImages, hn] at h
      exact Except.noConfusion h
    | some canonical =>
      cases hr : normalizeImages norm rest with
      | error e =>
        simp only [normalizeImages, hn, hr] at h
        exact Except.noConfusion h
      | ok others =>
        simp only [normalizeImages, hn, hr] at h
        cases h
        have hfix' := hfix _ _ hn
        obtain ⟨ih1, ih2⟩ := ih others hr
        constructor
        · intro img hmem
          rcases List.mem_cons.mp hmem with heq | hm
          · subst heq
            exact hfix'
          · exact ih1 img hm
        · simp only [normalizeImages, hfix', ih2]

/-- Witness for C10 at a concrete input (with a normalizer whose
canonical outputs are trivially fixed points). -/
theorem normalizeImages_canonical_keys_witness :
    (∀ img ∈ [WatchedImage.mk "docker.io/library/app" [] []],
        (fun s => some s : String → Option String) img.Name =
          some img.Name) ∧
      normalizeImages (fun s => some s)
          [WatchedImage.mk "docker.io/library/app" [] []] =
        .ok [WatchedImage.mk "docker.io/library/app" [] []] :=
  normalizeImages_canonical_keys (fun s => some s)
    (fun s c h => by cases h; rfl)
    [WatchedImage.mk "docker.io/library/app" [] []]
    [WatchedImage.mk "docker.io/library/app" [] []] rfl

/-! ### Claims about instance ordering -/

/-- The sort key of an instance: its namespace/job/group/task quadruple
under the lexicographic order on strings. -/
def instanceKey (i : Instance) : String ×ₗ String ×ₗ String ×ₗ String :=
  toLex (i.Namespace, toLex (i.Job, toLex (i.Group, i.Task)))

theorem descend_lex {β : Type} [LinearOrder β] (s t : String) (rest : Bool)
    (kb ka : β) (hrest : rest = true ↔ kb < ka) :
    (if s ≠ t then decide (s > t) else rest) = true ↔
      toLex (t, kb) < toLex (s, ka) := by
  rw [Prod.Lex.lt_iff]
  by_cases h : s = t
  · subst h
    simp [hrest, lt_irrefl]
  · simp [h, Ne.symm h, GT.gt]

/-- The `less` closure is exactly the strict reverse-lexicographic order
on the namespace/job/group/task key. -/
theorem instanceLess_iff (a b : Instance) :
    instanceLess a b = true ↔ instanceKey b < instanceKey a := by
  unfold instanceLess instanceKey
  refine descend_lex _ _ _ _ _ ?_
  refine descend_lex _ _ _ _ _ ?_
  refine descend_lex _ _ _ _ _ ?_
  by_cases h : a.Task = b.Task
  · simp [h, lt_irrefl]
  · simp [h, Ne.symm h, GT.gt]

theorem instanceLE_trans (a b c : Instance)
    (h1 : (!instanceLess b a) = true) (h2 : (!instanceLess c b) = true) :
    (!instanceLess c a) = true := by
  rw [Bool.not_eq_true'] at h1 h2 ⊢
  rw [← Bool.not_eq_true] at h1 h2 ⊢
  rw [instanceLess_iff] at h1 h2 ⊢
  rw [not_lt] at h1 h2 ⊢
  exact le_trans h2 h1

theorem instanceLE_total (a b : Instance) :
    ((!instanceLess b a) || (!instanceLess a b)) = true := by
  rw [Bool.or_eq_true, Bool.not_eq_true', Bool.not_eq_true']
  by_cases h : instanceLess b a = true
  · right
    rw [← Bool.not_eq_true, instanceLess_iff, not_lt]
    exact le_of_lt ((instanceLess_iff b a).mp h)
  · left
    exact Bool.not_eq_true _ ▸ Bool.eq_false_iff.mpr h

/-- C8: `sortInstances` returns a permutation of the gathered instances
that is sorted descending — reverse-lexicographically by namespace, then
job, then group, then task — regardless of the order in which namespaces
or instances were enumerated; and `getAllInstances` is exactly this sort
applied to the instances collected across the configured namespaces. -/
theorem sortInstances_sorted (instances : List Instance) :
    (sortInstances instances).Perm instances ∧
    (sortInstances instances).Pairwise
      (fun a b => instanceKey b ≤ instanceKey a) ∧
    ∀ (getInstances : String → Except String (List Instance))
      (namespaces : List String),
      getAllInstances getInstances namespaces =
        (collectInstances getInstances namespaces).map sortInstances := by
  refine ⟨List.mergeSort_perm instances _, ?_, ?_⟩
  · have hs := List.sorted_mergeSort instanceLE_trans instanceLE_total instances
    refine hs.imp ?_
    intro a b hx
    rw [Bool.not_eq_true'] at hx
    have : ¬ instanceLess b a = true := by
      rw [hx]
      exact Bool.false_ne_true
    rw [instanceLess_iff, not_lt] at this
    exact this
  · intro getInstances namespaces
    unfold getAllInstances
    cases collectInstances getInstances namespaces <;> rfl

end NomadTaskUpdates
